import Mathlib

/-!
Verification of the CodeGenie conversation-store subsystem.

The definitions below are a shallow embedding of `src/app.py` (conversation
persistence and the chat-management handlers) and `src/llm.py` (the Gemini
wrapper).  The persisted chat-history file is modelled as a `FileState`; the
in-memory store `st.session_state.conversations` is a Python `dict` from chat
name to JSON value, modelled as an association list with Python-dict insertion
semantics (assignment to an existing key updates the value in place, a new key
is appended at the end of the iteration order).
-/

namespace CodeGenie

/-- JSON values as produced by Python's `json.load`.  Object fields are kept
in file order; `toDict` below converts them to Python-dict semantics. -/
inductive JVal where
  | jnull
  | jbool (b : Bool)
  | jnum (n : Int)
  | jstr (s : String)
  | jarr (xs : List JVal)
  | jobj (fields : List (String × JVal))

mutual

/-- Decidable equality on JSON values (the derive handler does not support
nested inductives, so it is spelled out). -/
def JVal.decEq : (a b : JVal) → Decidable (a = b)
  | .jnull, .jnull => isTrue rfl
  | .jnull, .jbool _ => isFalse (fun h => JVal.noConfusion h)
  | .jnull, .jnum _ => isFalse (fun h => JVal.noConfusion h)
  | .jnull, .jstr _ => isFalse (fun h => JVal.noConfusion h)
  | .jnull, .jarr _ => isFalse (fun h => JVal.noConfusion h)
  | .jnull, .jobj _ => isFalse (fun h => JVal.noConfusion h)
  | .jbool _, .jnull => isFalse (fun h => JVal.noConfusion h)
  | .jbool x, .jbool y =>
    match Bool.decEq x y with
    | isTrue h => isTrue (h ▸ rfl)
    | isFalse h => isFalse (fun hh => h (JVal.jbool.inj hh))
  | .jbool _, .jnum _ => isFalse (fun h => JVal.noConfusion h)
  | .jbool _, .jstr _ => isFalse (fun h => JVal.noConfusion h)
  | .jbool _, .jarr _ => isFalse (fun h => JVal.noConfusion h)
  | .jbool _, .jobj _ => isFalse (fun h => JVal.noConfusion h)
  | .jnum _, .jnull => isFalse (fun h => JVal.noConfusion h)
  | .jnum _, .jbool _ => isFalse (fun h => JVal.noConfusion h)
  | .jnum x, .jnum y =>
    match Int.instDecidableEq x y with
    | isTrue h => isTrue (h ▸ rfl)
    | isFalse h => isFalse (fun hh => h (JVal.jnum.inj hh))
  | .jnum _, .jstr _ => isFalse (fun h => JVal.noConfusion h)
  | .jnum _, .jarr _ => isFalse (fun h => JVal.noConfusion h)
  | .jnum _, .jobj _ => isFalse (fun h => JVal.noConfusion h)
  | .jstr _, .jnull => isFalse (fun h => JVal.noConfusion h)
  | .jstr _, .jbool _ => isFalse (fun h => JVal.noConfusion h)
  | .jstr _, .jnum _ => isFalse (fun h => JVal.noConfusion h)
  | .jstr x, .jstr y =>
    match String.decEq x y with
    | isTrue h => isTrue (h ▸ rfl)
    | isFalse h => isFalse (fun hh => h (JVal.jstr.inj hh))
  | .jstr _, .jarr _ => isFalse (fun h => JVal.noConfusion h)
  | .jstr _, .jobj _ => isFalse (fun h => JVal.noConfusion h)
  | .jarr _, .jnull => isFalse (fun h => JVal.noConfusion h)
  | .jarr _, .jbool _ => isFalse (fun h => JVal.noConfusion h)
  | .jarr _, .jnum _ => isFalse (fun h => JVal.noConfusion h)
  | .jarr _, .jstr _ => isFalse (fun h => JVal.noConfusion h)
  | .jarr xs, .jarr ys =>
    match JVal.decEqList xs ys with
    | isTrue h => isTrue (h ▸ rfl)
    | isFalse h => isFalse (fun hh => h (JVal.jarr.inj hh))
  | .jarr _, .jobj _ => isFalse (fun h => JVal.noConfusion h)
  | .jobj _, .jnull => isFalse (fun h => JVal.noConfusion h)
  | .jobj _, .jbool _ => isFalse (fun h => JVal.noConfusion h)
  | .jobj _, .jnum _ => isFalse (fun h => JVal.noConfusion h)
  | .jobj _, .jstr _ => isFalse (fun h => JVal.noConfusion h)
  | .jobj _, .jarr _ => isFalse (fun h => JVal.noConfusion h)
  | .jobj xs, .jobj ys =>
    match JVal.decEqObj xs ys with
    | isTrue h => isTrue (h ▸ rfl)
    | isFalse h => isFalse (fun hh => h (JVal.jobj.inj hh))

/-- Decidable equality on lists of JSON values. -/
def JVal.decEqList : (a b : List JVal) → Decidable (a = b)
  | [], [] => isTrue rfl
  | [], _ :: _ => isFalse (fun h => List.noConfusion h)
  | _ :: _, [] => isFalse (fun h => List.noConfusion h)
  | x :: xs, y :: ys =>
    match JVal.decEq x y with
    | isFalse h => isFalse (fun hh => h (List.cons.inj hh).1)
    | isTrue h1 =>
      match JVal.decEqList xs ys with
      | isTrue h2 => isTrue (by rw [h1, h2])
      | isFalse h2 => isFalse (fun hh => h2 (List.cons.inj hh).2)

/-- Decidable equality on JSON object field lists. -/
def JVal.decEqObj : (a b : List (String × JVal)) → Decidable (a = b)
  | [], [] => isTrue rfl
  | [], _ :: _ => isFalse (fun h => List.noConfusion h)
  | _ :: _, [] => isFalse (fun h => List.noConfusion h)
  | (k1, v1) :: xs, (k2, v2) :: ys =>
    match String.decEq k1 k2 with
    | isFalse h => isFalse (fun hh => h (congrArg (fun l => (l.headD ("", .jnull)).1) hh))
    | isTrue hk =>
      match JVal.decEq v1 v2 with
      | isFalse h => isFalse (fun hh => h (congrArg (fun l => (l.headD ("", .jnull)).2) hh))
      | isTrue hv =>
        match JVal.decEqObj xs ys with
        | isTrue ht => isTrue (by rw [hk, hv, ht])
        | isFalse h => isFalse (fun hh => h (List.cons.inj hh).2)

end

instance : DecidableEq JVal := JVal.decEq

/-- The in-memory conversation store: a Python dict from chat name to the
conversation record (a JSON value). -/
abbrev Store := List (String × JVal)

/-- The keys of a Python dict, in insertion order. -/
def keys (s : Store) : List String := s.map Prod.fst

/-- Python dict assignment `d[k] = v`: if `k` is present its value is updated
in place (position preserved), otherwise the binding is appended at the end. -/
def dictInsert (s : Store) (k : String) (v : JVal) : Store :=
  if k ∈ keys s then s.map (fun kv => if kv.1 = k then (k, v) else kv)
  else s ++ [(k, v)]

/-- Python `json.load` of a JSON object: the fields are assigned into a fresh
dict one by one, so a duplicated key keeps its first position and last value. -/
def toDict (l : List (String × JVal)) : Store :=
  l.foldl (fun d kv => dictInsert d kv.1 kv.2) []

/-- Python `del d[k]` / the removal part of `d.pop(k)`. -/
def eraseKey (s : Store) (k : String) : Store :=
  s.filter (fun kv => kv.1 != k)

/-- Python `d.pop(k)`: returns the value at `k` together with the remaining
dict, or `none` when `k` is absent (Python raises `KeyError`). -/
def dictPop (s : Store) (k : String) : Option (JVal × Store) :=
  match s.lookup k with
  | some v => some (v, eraseKey s k)
  | none => none

/-- State of the persisted `chats.json` file.  `corrupt` covers an existing
file that is empty or not syntactically valid JSON, i.e. every state in which
`json.load` raises `JSONDecodeError`/`EOFError`. -/
inductive FileState where
  | missing
  | corrupt
  | valid (v : JVal)
deriving DecidableEq

/-- The canonical conversation record `{"created_at": c, "messages": m}`. -/
def canonRec (c : String) (m : List JVal) : JVal :=
  .jobj [("created_at", .jstr c), ("messages", .jarr m)]

/-- The default initial state built by `load_conversations`. -/
def defaultStore (now : String) : Store := [("Chat 1", canonRec now [])]

/-- Model of `save_conversations` (src/app.py lines 46-52): serializes the dict to the
file; the write-temp-then-`os.replace` pattern makes the new contents appear
atomically, so the resulting file state is simply the serialized store. -/
def save_conversations (conversations : Store) : FileState :=
  .valid (.jobj conversations)

/-- A legacy entry: the chat name maps to a bare list of messages. -/
def isLegacy (v : JVal) : Bool :=
  match v with
  | .jarr _ => true
  | _ => false

/-- A canonical entry: the chat name maps to a `{created_at, messages}`
record with a string timestamp and a message list. -/
def isCanonical (v : JVal) : Bool :=
  match v with
  | .jobj [("created_at", .jstr _), ("messages", .jarr _)] => true
  | _ => false

/-- The body of the migration loop in `load_conversations`: a bare list is
wrapped into `{"created_at": now, "messages": content}`, anything else is
left untouched. -/
def migrateEntry (now : String) (kv : String × JVal) : String × JVal :=
  match kv.2 with
  | .jarr m => (kv.1, canonRec now m)
  | _ => kv

/-- Model of `load_conversations` (src/app.py lines 15-44).  `now` is the value of
`datetime.now().isoformat()` at load time.  Returns the in-memory store
together with the resulting file state (the file is rewritten exactly when
the code calls `save_conversations`, that is when migration happened or the
loaded dict was empty).  A file that parses to a non-object raises
`AttributeError` at `data.items()`, which the `except` clause swallows,
falling back to the default state without touching the file. -/
def load_conversations (fs : FileState) (now : String) : Store × FileState :=
  match fs with
  | .valid (.jobj l) =>
      let d := toDict l
      let d1 := d.map (migrateEntry now)
      let migrated := d.any (fun kv => isLegacy kv.2)
      if d1.isEmpty then (defaultStore now, save_conversations (defaultStore now))
      else if migrated then (d1, save_conversations d1)
      else (d1, fs)
  | _ => (defaultStore now, fs)

/-- The per-session UI state: the conversation dict
(`st.session_state.conversations`) and the name of the active chat
(`st.session_state.current_chat`). -/
structure AppState where
  conversations : Store
  current_chat : String
deriving DecidableEq

/-- The delete-chat button handler (src/app.py lines 141-149) for the chat
named `name`.  When more than one conversation exists the entry is deleted,
the first remaining chat (in dict insertion order) becomes active and the
store is persisted; otherwise a toast reports that the last chat cannot be
deleted and nothing changes.  The returned flag records whether the deletion
happened. -/
def delete_chat (st : AppState) (name : String) : AppState × Bool :=
  if st.conversations.length > 1 then
    let convs := eraseKey st.conversations name
    (⟨convs, (keys convs).headD ""⟩, true)
  else (st, false)

/-- Outcome of the rename form handler. -/
inductive RenameResult where
  | renamed
  | duplicateError
  | emptyError
  | sameWarning
  | keyError
deriving DecidableEq

/-- The rename form handler (src/app.py lines 162-184) with old name `old`
and submitted text `new`.  Mirrors the Python control flow:
`if new_name and new_name != chat_to_rename` (duplicate check, then
`pop`/assign and the active-pointer update), `elif new_name == chat_to_rename`
(warning), `else` (empty-name error).  `keyError` marks the impossible case
in which `old` is not a key of the dict, where Python's `pop` would raise. -/
def rename_chat (st : AppState) (old new : String) : AppState × RenameResult :=
  if new ≠ "" ∧ new ≠ old then
    if new ∈ keys st.conversations then (st, .duplicateError)
    else
      match dictPop st.conversations old with
      | some (v, rest) =>
          let convs := dictInsert rest new v
          (⟨convs, if st.current_chat = old then new else st.current_chat⟩, .renamed)
      | none => (st, .keyError)
  else if new = old then (st, .sameWarning)
  else (st, .emptyError)

/-- The string `f"Chat {n}"`. -/
def chatName (n : Nat) : String := "Chat " ++ Nat.repr n

/-- The name-search loop of the new-chat handler: starting at offset `i`,
returns the first `f"Chat {len + i}"` that is not an existing key.  The
Python loop is `while True`; the fuel argument is only a termination bound
and `freshNameAux_some` below shows fuel `len + 1` never runs out. -/
def freshNameAux (ks : List String) (len : Nat) : Nat → Nat → Option String
  | 0, _ => none
  | fuel + 1, i =>
      let cand := chatName (len + i)
      if cand ∈ ks then freshNameAux ks len fuel (i + 1) else some cand

/-- The new-chat button handler (src/app.py lines 91-103): finds a fresh
name `f"Chat {len(conversations) + i}"`, inserts it with an empty message
list and the current timestamp, and makes it the active chat.  Returns the
new state together with the chosen name. -/
def new_chat (st : AppState) (now : String) : AppState × String :=
  let len := st.conversations.length
  let name := (freshNameAux (keys st.conversations) len (len + 1) 1).getD ""
  let convs := dictInsert st.conversations name (canonRec now [])
  (⟨convs, name⟩, name)

/-- The sort key used by `sorted_chats`:
`item[1].get("created_at", datetime.min.isoformat())`.  The claims only use
it on canonical records, whose `created_at` is a string; a non-string
timestamp would make Python's comparison raise `TypeError` and is mapped to
`""` here. -/
def sortKeyStr (v : JVal) : String :=
  match v with
  | .jobj fields =>
      match fields.lookup "created_at" with
      | some (.jstr s) => s
      | some _ => ""
      | none => "0001-01-01T00:00:00"
  | _ => ""

/-- Model of `sorted_chats` (src/app.py lines 109-113):
`sorted(conversations.items(), key=..., reverse=True)`.  Python's sort is
stable, and `reverse=True` inverts the comparison while keeping equal-key
elements in their original order; this is exactly `List.mergeSort` with the
reversed comparison, which takes the left element on ties. -/
def sorted_chats (conversations : Store) : Store :=
  conversations.mergeSort (fun a b => decide (sortKeyStr b.2 ≤ sortKeyStr a.2))

/-! ### The Gemini wrapper (src/llm.py) -/

/-- What the outbound Gemini call does for a given prompt: either the API
produces response text, or somewhere inside the `try` block an exception
with message `err` (Python's `str(e)`) is raised — covering client
construction and the `generate_content` call. -/
inductive ApiOutcome where
  | success (text : String)
  | failure (err : String)
deriving DecidableEq

/-- The fixed reply used when no credential is configured. -/
def noKeyMsg : String :=
  "❌ Error: GEMINI_API_KEY not found. Please set it in your environment."

/-- Whether `pat` occurs as a contiguous run at the head of `l`. -/
def headMatches : List Char → List Char → Bool
  | [], _ => true
  | _ :: _, [] => false
  | p :: ps, c :: cs => p == c && headMatches ps cs

/-- Python's substring test `pat in s`, on character lists. -/
def hasSub (pat : List Char) : List Char → Bool
  | [] => headMatches pat []
  | c :: cs => headMatches pat (c :: cs) || hasSub pat cs

/-- Model of `get_gemini_response` (src/llm.py lines 10-36).  `apiKey` is
`os.getenv("GEMINI_API_KEY")` (`none` when unset); `api` describes what the
Gemini client does with the prompt.  A falsy key (absent or empty) yields the
fixed explanatory string; an exception is converted to a `"⚠️ Error: "`
message embedding `str(e)`, with an extra hint for invalid-key and
permission-denied causes. -/
def get_gemini_response (apiKey : Option String) (api : String → ApiOutcome)
    (prompt : String) : String :=
  if apiKey.getD "" = "" then noKeyMsg
  else
    match api prompt with
    | .success t => t
    | .failure e =>
        let base := "⚠️ Error: " ++ e
        if hasSub "API_KEY_INVALID".data e.data then
          base ++ "\nReminder: Use a valid API key from Google AI Studio."
        else if hasSub "PERMISSION_DENIED".data e.data then
          base ++ "\nYour API key may not have access to Gemini API."
        else base

/-! ### Association-list (Python dict) lemmas -/

theorem keys_append (a b : Store) : keys (a ++ b) = keys a ++ keys b :=
  List.map_append _ a b

theorem lookup_eq_none_of_not_mem {l : Store} {k : String} (h : k ∉ keys l) :
    l.lookup k = none := by
  rw [List.lookup_eq_none_iff]
  intro p hp
  simp only [bne_iff_ne, ne_eq]
  intro hk
  exact h (hk ▸ List.mem_map_of_mem Prod.fst hp)

theorem not_mem_keys_eraseKey (l : Store) (k : String) : k ∉ keys (eraseKey l k) := by
  intro hmem
  simp only [keys, List.mem_map] at hmem
  obtain ⟨p, hp, hpk⟩ := hmem
  have h2 := (List.mem_filter.mp hp).2
  simp [hpk] at h2

theorem keys_eraseKey_subset (l : Store) (k : String) :
    keys (eraseKey l k) ⊆ keys l := by
  intro x hx
  simp only [keys, List.mem_map] at hx ⊢
  obtain ⟨p, hp, rfl⟩ := hx
  exact ⟨p, (List.mem_filter.mp hp).1, rfl⟩

theorem lookup_eraseKey_ne {l : Store} {k k' : String} (h : k' ≠ k) :
    (eraseKey l k).lookup k' = l.lookup k' := by
  induction l with
  | nil => rfl
  | cons p t ih =>
    obtain ⟨a, b⟩ := p
    simp only [eraseKey] at ih ⊢
    rw [List.filter_cons]
    by_cases hak : a = k
    · subst hak
      rw [if_neg (by simp), ih, List.lookup_cons]
      have hx : (k' == a) = false := by simp [h]
      simp [hx]
    · rw [if_pos (by simpa using hak), List.lookup_cons, List.lookup_cons, ih]

theorem dictInsert_of_not_mem {l : Store} {k : String} (v : JVal) (h : k ∉ keys l) :
    dictInsert l k v = l ++ [(k, v)] := by
  simp [dictInsert, h]

theorem toDict_aux (l : List (String × JVal)) :
    ∀ acc : Store, (keys acc ++ keys l).Nodup →
      List.foldl (fun d kv => dictInsert d kv.1 kv.2) acc l = acc ++ l := by
  induction l with
  | nil => intro acc _; simp
  | cons p t ih =>
    intro acc h
    obtain ⟨a, b⟩ := p
    have hka : keys ((a, b) :: t) = a :: keys t := rfl
    rw [hka] at h
    have hna : a ∉ keys acc := by
      rw [List.nodup_append] at h
      intro hmem
      exact h.2.2 hmem (List.mem_cons_self a _)
    have hacc : keys (acc ++ [(a, b)]) ++ keys t = keys acc ++ a :: keys t := by
      rw [keys_append]
      simp [keys]
    simp only [List.foldl_cons]
    rw [dictInsert_of_not_mem b hna, ih (acc ++ [(a, b)]) (hacc ▸ h)]
    simp

theorem toDict_self {l : Store} (h : (keys l).Nodup) : toDict l = l := by
  have := toDict_aux l [] (by simpa [keys] using h)
  simpa [toDict] using this

theorem isLegacy_eq_false_of_canonical {v : JVal} (h : isCanonical v = true) :
    isLegacy v = false := by
  cases v <;> simp_all [isCanonical, isLegacy]

theorem migrateEntry_eq_self {now : String} {kv : String × JVal}
    (h : isLegacy kv.2 = false) : migrateEntry now kv = kv := by
  obtain ⟨k, v⟩ := kv
  cases v <;> simp_all [migrateEntry, isLegacy]

theorem map_migrateEntry_eq_self {x : Store} {now : String}
    (h : ∀ kv ∈ x, isCanonical kv.2 = true) : x.map (migrateEntry now) = x := by
  induction x with
  | nil => rfl
  | cons p t ih =>
    simp only [List.map_cons]
    rw [migrateEntry_eq_self (isLegacy_eq_false_of_canonical (h p (List.mem_cons_self p t))),
      ih (fun kv hkv => h kv (List.mem_cons_of_mem p hkv))]

/-! ### Claim theorems -/

/-- C1: when the chat-history file is missing, empty, or not syntactically
valid JSON (the latter two modelled by `FileState.corrupt`, where
`json.load` raises), `load_conversations` returns exactly one conversation,
named "Chat 1", with an empty message list and the current timestamp as
`created_at`; the file itself is not touched. -/
theorem load_default_on_missing_or_invalid (now : String) :
    load_conversations .missing now = ([("Chat 1", canonRec now [])], .missing)
    ∧ load_conversations .corrupt now = ([("Chat 1", canonRec now [])], .corrupt) :=
  ⟨rfl, rfl⟩

/-- C3 (counterexample): round-trip fidelity fails for the empty mapping:
`save({})` writes `{}`, and the subsequent `load()` replaces it by the
default single "Chat 1" conversation instead of returning `{}`. -/
theorem roundtrip_empty_store_counterexample :
    (load_conversations (save_conversations []) "2024-01-01T00:00:00").1 ≠ [] := by
  decide

/-- C3 (amended): for every non-empty well-formed mapping (unique chat names,
every value a canonical `{created_at, messages}` record), `save` followed by
`load` returns exactly the saved mapping and leaves the file as written. -/
theorem save_load_roundtrip_nonempty (x : Store) (now : String) (hne : x ≠ [])
    (hnodup : (keys x).Nodup) (hwf : ∀ kv ∈ x, isCanonical kv.2 = true) :
    load_conversations (save_conversations x) now = (x, save_conversations x) := by
  have hmap : x.map (migrateEntry now) = x := map_migrateEntry_eq_self hwf
  have hany : (x.any fun kv => isLegacy kv.2) = false := by
    simp only [List.any_eq_false]
    intro kv hkv
    simp [isLegacy_eq_false_of_canonical (hwf kv hkv)]
  simp only [save_conversations, load_conversations, toDict_self hnodup, hmap, hany]
  simp [List.isEmpty_iff, hne]

/-- C3 (amended) witness at a concrete one-chat store. -/
theorem save_load_roundtrip_nonempty_witness :
    ([(("Chat 1" : String), canonRec "2024-01-01T00:00:00" [.jstr "hi"])] ≠ ([] : Store)
      ∧ (keys [("Chat 1", canonRec "2024-01-01T00:00:00" [.jstr "hi"])]).Nodup
      ∧ ∀ kv ∈ [(("Chat 1" : String), canonRec "2024-01-01T00:00:00" [.jstr "hi"])],
          isCanonical kv.2 = true)
    ∧ load_conversations
        (save_conversations [("Chat 1", canonRec "2024-01-01T00:00:00" [.jstr "hi"])]) "T"
      = ([("Chat 1", canonRec "2024-01-01T00:00:00" [.jstr "hi"])],
         save_conversations [("Chat 1", canonRec "2024-01-01T00:00:00" [.jstr "hi"])]) :=
  ⟨⟨by decide, by decide, by decide⟩,
    save_load_roundtrip_nonempty _ "T" (by decide) (by decide) (by decide)⟩

/-- C2: loading a store that mixes legacy (bare message list) and canonical
entries migrates exactly the legacy entries in place — each becomes a
`{created_at: load-time, messages: original list}` record with the message
list unchanged and all entries keeping their dict order — leaves canonical
entries untouched, makes every resulting entry canonical, and immediately
persists the migrated store, so a subsequent `save` is a no-op on the file. -/
theorem load_migrates_legacy_entries (l : List (String × JVal)) (now : String)
    (hne : toDict l ≠ [])
    (hwf : ∀ kv ∈ toDict l, isLegacy kv.2 = true ∨ isCanonical kv.2 = true)
    (hleg : ∃ kv ∈ toDict l, isLegacy kv.2 = true) :
    (load_conversations (.valid (.jobj l)) now).1 = (toDict l).map (migrateEntry now)
    ∧ (∀ kv ∈ (load_conversations (.valid (.jobj l)) now).1, isCanonical kv.2 = true)
    ∧ (∀ k m, (k, JVal.jarr m) ∈ toDict l →
        (k, canonRec now m) ∈ (load_conversations (.valid (.jobj l)) now).1)
    ∧ (∀ kv ∈ toDict l, isCanonical kv.2 = true →
        kv ∈ (load_conversations (.valid (.jobj l)) now).1)
    ∧ (load_conversations (.valid (.jobj l)) now).2
        = save_conversations ((load_conversations (.valid (.jobj l)) now).1) := by
  have hany : ((toDict l).any fun kv => isLegacy kv.2) = true := by
    rw [List.any_eq_true]
    exact hleg
  have hd1ne : (toDict l).map (migrateEntry now) ≠ [] := by
    intro hmap
    exact hne (List.map_eq_nil_iff.mp hmap)
  have heq : load_conversations (.valid (.jobj l)) now
      = ((toDict l).map (migrateEntry now),
         save_conversations ((toDict l).map (migrateEntry now))) := by
    simp only [load_conversations, hany]
    simp [List.isEmpty_iff, hd1ne]
  rw [heq]
  refine ⟨rfl, ?_, ?_, ?_, rfl⟩
  · intro kv hkv
    obtain ⟨⟨k0, v0⟩, hkv0, rfl⟩ := List.mem_map.mp hkv
    rcases hwf (k0, v0) hkv0 with hl | hc
    · cases v0 <;> simp_all [migrateEntry, isLegacy, isCanonical, canonRec]
    · rw [migrateEntry_eq_self (isLegacy_eq_false_of_canonical hc)]
      exact hc
  · intro k m hmem
    exact List.mem_map.mpr ⟨(k, .jarr m), hmem, by simp [migrateEntry]⟩
  · intro kv hkv hc
    exact List.mem_map.mpr ⟨kv, hkv, migrateEntry_eq_self (isLegacy_eq_false_of_canonical hc)⟩

/-- C2 witness: a store with one legacy and one canonical entry. -/
theorem load_migrates_legacy_entries_witness :
    (toDict [("Old", .jarr [.jstr "m"]), ("New", canonRec "2023" [])] ≠ []
      ∧ (∀ kv ∈ toDict [("Old", .jarr [.jstr "m"]), ("New", canonRec "2023" [])],
          isLegacy kv.2 = true ∨ isCanonical kv.2 = true)
      ∧ ∃ kv ∈ toDict [("Old", .jarr [.jstr "m"]), ("New", canonRec "2023" [])],
          isLegacy kv.2 = true)
    ∧ (load_conversations
          (.valid (.jobj [("Old", .jarr [.jstr "m"]), ("New", canonRec "2023" [])])) "T").1
        = (toDict [("Old", .jarr [.jstr "m"]), ("New", canonRec "2023" [])]).map
            (migrateEntry "T") :=
  ⟨⟨by decide, by decide, by decide⟩,
    (load_migrates_legacy_entries [("Old", .jarr [.jstr "m"]), ("New", canonRec "2023" [])]
      "T" (by decide) (by decide) (by decide)).1⟩

/-- C9: the Gemini wrapper is a total function into strings (it never raises):
with an absent or empty credential it returns the fixed explanatory message,
with a working call it returns the response text, and when the call raises it
returns a message carrying the distinctive "⚠️ Error: " marker followed by
`str(e)` (plus a cause-specific hint for invalid-key or permission-denied
errors), so the underlying cause is embedded in the reply. -/
theorem gemini_response_error_handling (api : String → ApiOutcome) (prompt : String) :
    get_gemini_response none api prompt = noKeyMsg
    ∧ get_gemini_response (some "") api prompt = noKeyMsg
    ∧ (∀ key t, key ≠ "" → api prompt = .success t →
        get_gemini_response (some key) api prompt = t)
    ∧ (∀ key e, key ≠ "" → api prompt = .failure e →
        ∃ tail, get_gemini_response (some key) api prompt = "⚠️ Error: " ++ e ++ tail) := by
  refine ⟨by simp [get_gemini_response], by simp [get_gemini_response],
    fun key t hk hapi => by simp [get_gemini_response, hk, hapi], fun key e hk hapi => ?_⟩
  by_cases h1 : hasSub "API_KEY_INVALID".data e.data = true
  · exact ⟨"\nReminder: Use a valid API key from Google AI Studio.",
      by simp [get_gemini_response, hk, hapi, h1]⟩
  · by_cases h2 : hasSub "PERMISSION_DENIED".data e.data = true
    · exact ⟨"\nYour API key may not have access to Gemini API.",
        by simp [get_gemini_response, hk, hapi, h1, h2]⟩
    · exact ⟨"", by simp [get_gemini_response, hk, hapi, h1, h2]⟩

/-- C9 witness: a failing call with a permission-denied cause embeds the
cause after the error marker. -/
theorem gemini_response_error_handling_witness :
    (("k" : String) ≠ ""
      ∧ (fun (_ : String) => ApiOutcome.failure "PERMISSION_DENIED: no access") "p"
          = .failure "PERMISSION_DENIED: no access")
    ∧ ∃ tail,
        get_gemini_response (some "k")
            (fun _ => .failure "PERMISSION_DENIED: no access") "p"
          = "⚠️ Error: " ++ "PERMISSION_DENIED: no access" ++ tail :=
  ⟨⟨by decide, rfl⟩,
    (gemini_response_error_handling (fun _ => .failure "PERMISSION_DENIED: no access")
      "p").2.2.2 "k" "PERMISSION_DENIED: no access" (by decide) rfl⟩

/-- C4: at least one conversation always exists: every store returned by
`load_conversations` is non-empty, and the delete handler rejects deleting
the only remaining conversation, leaving the state (and so the count of 1)
unchanged. -/
theorem load_nonempty_and_last_delete_rejected :
    (∀ fs now, (load_conversations fs now).1 ≠ [])
    ∧ ∀ (st : AppState) (name : String), st.conversations.length = 1 →
        delete_chat st name = (st, false) := by
  constructor
  · intro fs now
    cases fs with
    | missing => simp [load_conversations, defaultStore]
    | corrupt => simp [load_conversations, defaultStore]
    | valid v =>
      cases v with
      | jobj l =>
        simp only [load_conversations]
        split
        · simp [defaultStore]
        · next h =>
          have h1 : ((toDict l).map (migrateEntry now)) ≠ [] := by
            simpa [List.isEmpty_iff] using h
          split <;> simpa using h1
      | jnull => simp [load_conversations, defaultStore]
      | jbool b => simp [load_conversations, defaultStore]
      | jnum n => simp [load_conversations, defaultStore]
      | jstr s => simp [load_conversations, defaultStore]
      | jarr xs => simp [load_conversations, defaultStore]
  · intro st name h
    simp [delete_chat, h]

/-- C4 witness: the default load is non-empty, and deleting the sole chat of
a one-chat state is a rejected no-op. -/
theorem load_nonempty_and_last_delete_rejected_witness :
    (load_conversations .missing "T").1 ≠ []
    ∧ ((⟨[("Chat 1", canonRec "T" [])], "Chat 1"⟩ : AppState).conversations.length = 1
      ∧ delete_chat ⟨[("Chat 1", canonRec "T" [])], "Chat 1"⟩ "Chat 1"
          = (⟨[("Chat 1", canonRec "T" [])], "Chat 1"⟩, false)) :=
  ⟨load_nonempty_and_last_delete_rejected.1 .missing "T",
    by decide,
    load_nonempty_and_last_delete_rejected.2 _ "Chat 1" (by decide)⟩

/-- C5: the rename handler aborts without touching the conversations or the
active-chat pointer in all three invalid cases: a `new` name that already
names another conversation (duplicate error), an empty `new` name (empty-name
error), and `new == old` (warning no-op).  When both `old` and `new` are the
empty string the code's `elif new_name == chat_to_rename` branch fires, so
that corner is the warning case. -/
theorem rename_invalid_name_aborts (st : AppState) (old new : String) :
    (new ≠ "" → new ≠ old → new ∈ keys st.conversations →
      rename_chat st old new = (st, .duplicateError))
    ∧ (new = "" → old ≠ "" → rename_chat st old new = (st, .emptyError))
    ∧ (new = old → rename_chat st old new = (st, .sameWarning)) := by
  refine ⟨fun h1 h2 h3 => ?_, fun h1 h2 => ?_, fun h => ?_⟩
  · simp [rename_chat, h1, h2, h3]
  · subst h1
    have h2' : ("" : String) ≠ old := Ne.symm h2
    simp [rename_chat, h2']
  · subst h
    simp [rename_chat]

/-- C5 witness: all three abort cases at concrete two-chat states. -/
theorem rename_invalid_name_aborts_witness :
    ((("B" : String) ≠ "" ∧ ("B" : String) ≠ "A"
        ∧ ("B" : String) ∈ keys [("A", canonRec "c" []), ("B", canonRec "d" [])])
      ∧ rename_chat ⟨[("A", canonRec "c" []), ("B", canonRec "d" [])], "A"⟩ "A" "B"
          = (⟨[("A", canonRec "c" []), ("B", canonRec "d" [])], "A"⟩, .duplicateError))
    ∧ ((("" : String) = "" ∧ ("A" : String) ≠ "")
      ∧ rename_chat ⟨[("A", canonRec "c" []), ("B", canonRec "d" [])], "A"⟩ "A" ""
          = (⟨[("A", canonRec "c" []), ("B", canonRec "d" [])], "A"⟩, .emptyError))
    ∧ ((("A" : String) = "A")
      ∧ rename_chat ⟨[("A", canonRec "c" []), ("B", canonRec "d" [])], "A"⟩ "A" "A"
          = (⟨[("A", canonRec "c" []), ("B", canonRec "d" [])], "A"⟩, .sameWarning)) :=
  ⟨⟨⟨by decide, by decide, by decide⟩,
      (rename_invalid_name_aborts _ "A" "B").1 (by decide) (by decide) (by decide)⟩,
    ⟨⟨rfl, by decide⟩, (rename_invalid_name_aborts _ "A" "").2.1 rfl (by decide)⟩,
    ⟨rfl, (rename_invalid_name_aborts _ "A" "A").2.2 rfl⟩⟩

/-- Shared helper: explicit form of a successful rename.  Under the success
conditions the handler pops `old` (leaving `eraseKey`), assigns the record to
the fresh key `new` (which appends it at the end of the dict order), and
redirects the active-chat pointer exactly when it pointed at `old`. -/
theorem renameChat_eq_of_valid (st : AppState) (old new : String) (v : JVal)
    (h1 : new ≠ "") (h2 : new ≠ old) (h3 : new ∉ keys st.conversations)
    (h4 : st.conversations.lookup old = some v) :
    rename_chat st old new =
      (⟨eraseKey st.conversations old ++ [(new, v)],
        if st.current_chat = old then new else st.current_chat⟩, .renamed) := by
  have h5 : new ∉ keys (eraseKey st.conversations old) :=
    fun hm => h3 (keys_eraseKey_subset _ _ hm)
  simp only [rename_chat, dictPop, h4, if_pos (And.intro h1 h2), if_neg h3,
    dictInsert_of_not_mem v h5]

/-- C6: a successful rename stores exactly the old record under `new`
(history and `created_at` preserved), removes `old`, leaves every other
conversation's record unchanged, and updates the active-chat pointer to
`new` precisely when it referenced `old`. -/
theorem rename_success_properties (st : AppState) (old new : String) (v : JVal)
    (h1 : new ≠ "") (h2 : new ≠ old) (h3 : new ∉ keys st.conversations)
    (h4 : st.conversations.lookup old = some v) :
    (rename_chat st old new).2 = .renamed
    ∧ (rename_chat st old new).1.conversations.lookup new = some v
    ∧ old ∉ keys (rename_chat st old new).1.conversations
    ∧ (∀ k, k ≠ old → k ≠ new →
        (rename_chat st old new).1.conversations.lookup k = st.conversations.lookup k)
    ∧ (st.current_chat = old → (rename_chat st old new).1.current_chat = new)
    ∧ (st.current_chat ≠ old → (rename_chat st old new).1.current_chat = st.current_chat) := by
  have h5 : new ∉ keys (eraseKey st.conversations old) :=
    fun hm => h3 (keys_eraseKey_subset _ _ hm)
  rw [renameChat_eq_of_valid st old new v h1 h2 h3 h4]
  refine ⟨rfl, ?_, ?_, fun k hk1 hk2 => ?_, fun h => by simp [h], fun h => by simp [h]⟩
  · rw [List.lookup_append, lookup_eq_none_of_not_mem h5]
    simp
  · rw [keys_append]
    simp only [List.mem_append, not_or]
    refine ⟨not_mem_keys_eraseKey _ _, ?_⟩
    have h2' : old ≠ new := Ne.symm h2
    simp [keys, h2']
  · rw [List.lookup_append, lookup_eraseKey_ne hk1]
    cases hx : st.conversations.lookup k with
    | none =>
      have hb : (k == new) = false := by simp [hk2]
      have hnone : ([(new, v)] : Store).lookup k = none := by
        rw [List.lookup_cons]
        simp [hb]
      simp [hnone]
    | some w => simp

/-- C6 witness: renaming "A" to "C" in a two-chat state. -/
theorem rename_success_properties_witness :
    ((("C" : String) ≠ "" ∧ ("C" : String) ≠ "A"
        ∧ ("C" : String) ∉ keys [("A", canonRec "c" []), ("B", canonRec "d" [])]
        ∧ ([("A", canonRec "c" []), ("B", canonRec "d" [])] : Store).lookup "A"
            = some (canonRec "c" []))
      ∧ (rename_chat ⟨[("A", canonRec "c" []), ("B", canonRec "d" [])], "A"⟩ "A" "C").2
          = .renamed
      ∧ (rename_chat ⟨[("A", canonRec "c" []), ("B", canonRec "d" [])], "A"⟩
          "A" "C").1.conversations.lookup "C" = some (canonRec "c" [])) :=
  ⟨⟨by decide, by decide, by decide, by decide⟩,
    (rename_success_properties ⟨[("A", canonRec "c" []), ("B", canonRec "d" [])], "A"⟩
      "A" "C" (canonRec "c" []) (by decide) (by decide) (by decide) (by decide)).1,
    (rename_success_properties ⟨[("A", canonRec "c" []), ("B", canonRec "d" [])], "A"⟩
      "A" "C" (canonRec "c" []) (by decide) (by decide) (by decide) (by decide)).2.1⟩

/-- C8: `sorted_chats` returns a permutation of the store ordered by
`created_at` descending (every entry's key is ≥ the keys of all later
entries), and it is stable: two entries with equal `created_at` keep their
original insertion order (any such pair that appears in order in the store
still appears in that order in the output). -/
theorem sorted_chats_ordering (conversations : Store) :
    List.Perm (sorted_chats conversations) conversations
    ∧ (sorted_chats conversations).Pairwise
        (fun a b => sortKeyStr b.2 ≤ sortKeyStr a.2)
    ∧ ∀ a b : String × JVal, sortKeyStr a.2 = sortKeyStr b.2 →
        List.Sublist [a, b] conversations →
        List.Sublist [a, b] (sorted_chats conversations) := by
  have htrans : ∀ a b c : String × JVal,
      decide (sortKeyStr b.2 ≤ sortKeyStr a.2) = true →
      decide (sortKeyStr c.2 ≤ sortKeyStr b.2) = true →
      decide (sortKeyStr c.2 ≤ sortKeyStr a.2) = true := by
    intro a b c h1 h2
    simp only [decide_eq_true_eq] at h1 h2 ⊢
    exact le_trans h2 h1
  have htotal : ∀ a b : String × JVal,
      (decide (sortKeyStr b.2 ≤ sortKeyStr a.2)
        || decide (sortKeyStr a.2 ≤ sortKeyStr b.2)) = true := by
    intro a b
    simp only [Bool.or_eq_true, decide_eq_true_eq]
    exact le_total _ _
  refine ⟨List.mergeSort_perm _ _, ?_, ?_⟩
  · exact (List.sorted_mergeSort htrans htotal conversations).imp
      (fun h => decide_eq_true_eq.mp h)
  · intro a b hkey hsub
    apply List.sublist_mergeSort htrans htotal ?_ hsub
    refine List.Pairwise.cons ?_ (List.pairwise_singleton _ _)
    intro b' hb'
    rw [List.mem_singleton] at hb'
    subst hb'
    simp [hkey]

/-- C8 witness: two equal-timestamp chats keep their insertion order. -/
theorem sorted_chats_ordering_witness :
    (sortKeyStr (("A" : String), canonRec "2024" []).2
        = sortKeyStr (("C" : String), canonRec "2024" []).2
      ∧ List.Sublist [(("A" : String), canonRec "2024" []), ("C", canonRec "2024" [])]
          [(("A" : String), canonRec "2024" []), ("C", canonRec "2024" [])])
    ∧ List.Sublist [(("A" : String), canonRec "2024" []), ("C", canonRec "2024" [])]
        (sorted_chats [(("A" : String), canonRec "2024" []), ("C", canonRec "2024" [])]) :=
  ⟨⟨rfl, List.Sublist.refl _⟩,
    (sorted_chats_ordering [(("A" : String), canonRec "2024" []), ("C", canonRec "2024" [])]).2.2
      ("A", canonRec "2024" []) ("C", canonRec "2024" []) rfl (List.Sublist.refl _)⟩

/-! ### Injectivity of decimal rendering, for the new-chat name search -/

theorem toDigitsCore_eq_digits (fuel : Nat) :
    ∀ (n : Nat) (ds : List Char), 0 < n → n ≤ fuel →
      Nat.toDigitsCore 10 fuel n ds
        = ((Nat.digits 10 n).map Nat.digitChar).reverse ++ ds := by
  induction fuel with
  | zero => intro n ds h1 h2; omega
  | succ fuel ih =>
    intro n ds h1 h2
    have hd : Nat.digits 10 n = n % 10 :: Nat.digits 10 (n / 10) :=
      Nat.digits_def' (by norm_num) h1
    simp only [Nat.toDigitsCore]
    by_cases h0 : n / 10 = 0
    · rw [if_pos h0, hd, h0]
      simp
    · rw [if_neg h0]
      have hlt : n / 10 < n := Nat.div_lt_self h1 (by norm_num)
      rw [ih (n / 10) _ (Nat.pos_of_ne_zero h0) (by omega), hd]
      simp

theorem repr_eq_of_pos {n : Nat} (h : 0 < n) :
    Nat.repr n = (((Nat.digits 10 n).map Nat.digitChar).reverse).asString := by
  unfold Nat.repr Nat.toDigits
  rw [toDigitsCore_eq_digits (n + 1) n [] h (by omega)]
  simp

theorem digitChar_injOn (a b : Nat) (ha : a < 10) (hb : b < 10)
    (h : Nat.digitChar a = Nat.digitChar b) : a = b := by
  interval_cases a <;> interval_cases b <;> revert h <;> decide

theorem map_digitChar_inj : ∀ l1 l2 : List Nat,
    (∀ d ∈ l1, d < 10) → (∀ d ∈ l2, d < 10) →
    l1.map Nat.digitChar = l2.map Nat.digitChar → l1 = l2 := by
  intro l1
  induction l1 with
  | nil =>
    intro l2 _ _ h
    cases l2 with
    | nil => rfl
    | cons b t2 => simp at h
  | cons a t ih =>
    intro l2 h1 h2 h
    cases l2 with
    | nil => simp at h
    | cons b t2 =>
      simp only [List.map_cons, List.cons.injEq] at h
      rw [digitChar_injOn a b (h1 a (List.mem_cons_self a t)) (h2 b (List.mem_cons_self b t2)) h.1,
        ih t2 (fun d hd => h1 d (List.mem_cons_of_mem _ hd))
          (fun d hd => h2 d (List.mem_cons_of_mem _ hd)) h.2]

theorem repr_pos_ne_zero_str {n : Nat} (h : 0 < n) : Nat.repr n ≠ "0" := by
  intro heq
  rw [repr_eq_of_pos h] at heq
  have hl : ((Nat.digits 10 n).map Nat.digitChar).reverse = ['0'] :=
    congrArg String.data heq
  have hl2 : (Nat.digits 10 n).map Nat.digitChar = ['0'] := by
    have := congrArg List.reverse hl
    simpa using this
  have hdigits : Nat.digits 10 n = [0] := by
    have h0 : ([0] : List Nat).map Nat.digitChar = ['0'] := rfl
    exact map_digitChar_inj _ _ (fun d hd => Nat.digits_lt_base (by norm_num) hd)
      (by intro d hd; simp at hd; omega) (hl2.trans h0.symm)
  have hof := Nat.ofDigits_digits 10 n
  rw [hdigits] at hof
  simp [Nat.ofDigits] at hof
  omega

theorem nat_repr_inj : Function.Injective Nat.repr := by
  intro m n h
  rcases Nat.eq_zero_or_pos m with hm | hm
  · rcases Nat.eq_zero_or_pos n with hn | hn
    · omega
    · exfalso
      subst hm
      exact repr_pos_ne_zero_str hn (by simpa using h.symm)
  · rcases Nat.eq_zero_or_pos n with hn | hn
    · exfalso
      subst hn
      exact repr_pos_ne_zero_str hm (by simpa using h)
    · rw [repr_eq_of_pos hm, repr_eq_of_pos hn] at h
      have hl : ((Nat.digits 10 m).map Nat.digitChar).reverse
          = ((Nat.digits 10 n).map Nat.digitChar).reverse := congrArg String.data h
      have hl2 := List.reverse_injective hl
      have hdig := map_digitChar_inj _ _
        (fun d hd => Nat.digits_lt_base (by norm_num) hd)
        (fun d hd => Nat.digits_lt_base (by norm_num) hd) hl2
      exact Nat.digits.injective 10 hdig

theorem chatName_inj : Function.Injective chatName := by
  intro m n h
  apply nat_repr_inj
  have hd := congrArg String.data h
  simp only [chatName, String.data_append] at hd
  exact String.toList_inj.mp (List.append_cancel_left hd)

/-- Pigeonhole: among the `len + 1` candidate names `f"Chat {len + j}"` for
`j = 1 .. len + 1`, at least one is not among the `len` existing keys. -/
theorem exists_fresh (ks : List String) :
    ∃ j, 1 ≤ j ∧ j < ks.length + 2 ∧ chatName (ks.length + j) ∉ ks := by
  by_contra hcon
  push_neg at hcon
  have hsub : ((List.range (ks.length + 1)).map
      (fun t => chatName (ks.length + 1 + t))) ⊆ ks := by
    intro x hx
    simp only [List.mem_map, List.mem_range] at hx
    obtain ⟨t, ht, rfl⟩ := hx
    have hmem := hcon (1 + t) (by omega) (by omega)
    have harith : ks.length + (1 + t) = ks.length + 1 + t := by omega
    rw [harith] at hmem
    exact hmem
  have hnodup : ((List.range (ks.length + 1)).map
      (fun t => chatName (ks.length + 1 + t))).Nodup := by
    refine List.Nodup.map ?_ (List.nodup_range _)
    intro a b hab
    have := chatName_inj hab
    omega
  have hle := (hnodup.subperm hsub).length_le
  rw [List.length_map, List.length_range] at hle
  omega

/-- The name-search loop returns a fresh `f"Chat {N}"` whenever some offset
within its fuel budget yields a name that is not an existing key. -/
theorem freshNameAux_some (ks : List String) (len : Nat) :
    ∀ (fuel i : Nat), (∃ j, i ≤ j ∧ j < i + fuel ∧ chatName (len + j) ∉ ks) →
      ∃ N, freshNameAux ks len fuel i = some (chatName N) ∧ chatName N ∉ ks := by
  intro fuel
  induction fuel with
  | zero =>
    intro i h
    obtain ⟨j, h1, h2, _⟩ := h
    omega
  | succ fuel ih =>
    intro i h
    obtain ⟨j, h1, h2, h3⟩ := h
    simp only [freshNameAux]
    by_cases hc : chatName (len + i) ∈ ks
    · rw [if_pos hc]
      apply ih (i + 1)
      refine ⟨j, ?_, by omega, h3⟩
      rcases Nat.eq_or_lt_of_le h1 with rfl | hlt
      · exact absurd hc h3
      · omega
    · rw [if_neg hc]
      exact ⟨len + i, rfl, hc⟩

/-- C7: the new-chat handler always produces a name of the form `"Chat N"`
that does not collide with any existing chat name, appends it to the store
with an empty message list and the current timestamp, and makes it active;
in particular from a store holding only "Chat 1" two consecutive calls
produce "Chat 2" and then "Chat 3". -/
theorem create_chat_fresh_names :
    (∀ (st : AppState) (now : String),
      (∃ N, (new_chat st now).2 = chatName N)
      ∧ (new_chat st now).2 ∉ keys st.conversations
      ∧ (new_chat st now).1.conversations
          = st.conversations ++ [((new_chat st now).2, canonRec now [])]
      ∧ (new_chat st now).1.current_chat = (new_chat st now).2)
    ∧ ∀ (v : JVal) (now now2 : String),
        (new_chat ⟨[("Chat 1", v)], "Chat 1"⟩ now).2 = "Chat 2"
        ∧ (new_chat (new_chat ⟨[("Chat 1", v)], "Chat 1"⟩ now).1 now2).2 = "Chat 3" := by
  have hgen : ∀ (st : AppState) (now : String),
      (∃ N, (new_chat st now).2 = chatName N)
      ∧ (new_chat st now).2 ∉ keys st.conversations
      ∧ (new_chat st now).1.conversations
          = st.conversations ++ [((new_chat st now).2, canonRec now [])]
      ∧ (new_chat st now).1.current_chat = (new_chat st now).2 := by
    intro st now
    have hklen : (keys st.conversations).length = st.conversations.length :=
      List.length_map _ _
    obtain ⟨j, hj1, hj2, hj3⟩ := exists_fresh (keys st.conversations)
    rw [hklen] at hj2 hj3
    obtain ⟨N, hN, hNmem⟩ := freshNameAux_some (keys st.conversations)
      st.conversations.length (st.conversations.length + 1) 1 ⟨j, hj1, by omega, hj3⟩
    have hname : (new_chat st now).2 = chatName N := by
      simp only [new_chat, hN, Option.getD_some]
    refine ⟨⟨N, hname⟩, hname ▸ hNmem, ?_, ?_⟩
    · simp only [new_chat, hN, Option.getD_some]
      exact dictInsert_of_not_mem _ hNmem
    · simp only [new_chat]
  refine ⟨hgen, fun v now now2 => ?_⟩
  have hstep1 : new_chat ⟨[("Chat 1", v)], "Chat 1"⟩ now
      = (⟨[("Chat 1", v), ("Chat 2", canonRec now [])], "Chat 2"⟩, "Chat 2") := by
    have hks : keys [("Chat 1", v)] = ["Chat 1"] := rfl
    have hfresh : freshNameAux ["Chat 1"] 1 (1 + 1) 1 = some "Chat 2" := by decide
    have hmem : ("Chat 2" : String) ∉ keys [("Chat 1", v)] := by
      rw [hks]
      decide
    simp only [new_chat, List.length_cons, List.length_nil, hks, hfresh, Option.getD_some,
      dictInsert_of_not_mem _ hmem]
    rfl
  have hstep2 : (new_chat (⟨[("Chat 1", v), ("Chat 2", canonRec now [])], "Chat 2"⟩ : AppState)
      now2).2 = "Chat 3" := by
    have hks : keys [("Chat 1", v), ("Chat 2", canonRec now [])] = ["Chat 1", "Chat 2"] := rfl
    have hfresh : freshNameAux ["Chat 1", "Chat 2"] 2 (2 + 1) 1 = some "Chat 3" := by decide
    simp only [new_chat, List.length_cons, List.length_nil, hks, hfresh, Option.getD_some]
  exact ⟨by rw [hstep1], by rw [hstep1]; exact hstep2⟩

/-- C10: a successful rename re-inserts the renamed conversation at the end
of the dict's insertion order: the resulting store is the old store with
`old` removed (all other entries keeping their relative order) followed by
the `(new, record)` binding, whose key is thus the last — most recently
inserted — chat name. -/
theorem rename_moves_entry_to_end (st : AppState) (old new : String) (v : JVal)
    (h1 : new ≠ "") (h2 : new ≠ old) (h3 : new ∉ keys st.conversations)
    (h4 : st.conversations.lookup old = some v) :
    (rename_chat st old new).1.conversations
        = eraseKey st.conversations old ++ [(new, v)]
    ∧ (keys (rename_chat st old new).1.conversations).getLast? = some new := by
  rw [renameChat_eq_of_valid st old new v h1 h2 h3 h4]
  refine ⟨rfl, ?_⟩
  rw [keys_append]
  have : keys [(new, v)] = [new] := rfl
  rw [this, List.getLast?_concat]

/-- C10 witness: the renamed chat lands at the end of the store order. -/
theorem rename_moves_entry_to_end_witness :
    ((("C" : String) ≠ "" ∧ ("C" : String) ≠ "A"
        ∧ ("C" : String) ∉ keys [("A", canonRec "c" []), ("B", canonRec "d" [])]
        ∧ ([("A", canonRec "c" []), ("B", canonRec "d" [])] : Store).lookup "A"
            = some (canonRec "c" []))
      ∧ (rename_chat ⟨[("A", canonRec "c" []), ("B", canonRec "d" [])], "A"⟩
            "A" "C").1.conversations
          = eraseKey [("A", canonRec "c" []), ("B", canonRec "d" [])] "A"
              ++ [("C", canonRec "c" [])]) :=
  ⟨⟨by decide, by decide, by decide, by decide⟩,
    (rename_moves_entry_to_end ⟨[("A", canonRec "c" []), ("B", canonRec "d" [])], "A"⟩
      "A" "C" (canonRec "c" []) (by decide) (by decide) (by decide) (by decide)).1⟩

end CodeGenie
